import Mathlib

/-!
Verification development for a thin IndexedDB wrapper (a single TypeScript
class `IDB` in `src/index.ts`).  The wrapper converts the host engine's
event/callback API into promises and applies a declared schema during the
version-upgrade event.

The embedding below is a shallow translation of that source file:
* the schema types mirror the `IDBSchema` declaration at the top of the file;
* the handle's private `#db` / `#schema` fields and their accessors are
  modelled with `Option` fields and `Except`-returning getters;
* the `onupgradeneeded` handler is translated into a pure state transformer
  over an explicit database state, which additionally records a trace of the
  host calls it performs (store creation, index creation, connection storage,
  caller-callback invocation);
* `transaction` and the nine data operations are translated into functions
  producing an ordered event trace (callback settlement, explicit commit,
  abort, the host `complete` event, promise settlement) together with the
  resulting store contents; the host engine's own documented behaviour
  (buffered mutations are applied on `complete` and discarded on `abort`;
  each object-store method returns a result or an error) supplies the
  environment the wrapper runs against.
-/

namespace IDBWrap

/-- Options of an index declaration (`IDBIndexParameters`). -/
structure IndexOptions where
  unique : Bool
  multiEntry : Bool
deriving DecidableEq, Repr

/-- An index declaration inside the schema (`indexes` entries of
`IDBSchema.objectStores`): a name, a key path and options. -/
structure IndexDecl where
  name : String
  keyPath : List String
  options : IndexOptions
deriving DecidableEq, Repr

/-- Options of an object-store declaration (`IDBObjectStoreParameters`). -/
structure StoreOptions where
  keyPath : Option (List String)
  autoIncrement : Bool
deriving DecidableEq, Repr

/-- An object-store (partition) declaration of the schema: name, creation
options and an optional list of index declarations (`objectStores` entries
of `IDBSchema`; `indexes?` is optional in the source, hence `Option`). -/
structure StoreDecl where
  name : String
  options : StoreOptions
  indexes : Option (List IndexDecl)
deriving DecidableEq, Repr

/-- The `IDBSchema` type of the source: container name, optional version,
optional list of object-store declarations (`objectStores?`). -/
structure IDBSchema where
  name : String
  version : Option Nat
  objectStores : Option (List StoreDecl)
deriving DecidableEq, Repr

/-! ## Handle fields and accessors (`get db` / `get schema` / constructor) -/

/-- An open connection to the host engine, abstracted to an identifier. -/
structure DBConn where
  connId : Nat
deriving DecidableEq, Repr

/-- The error thrown by the `db` / `schema` getters when the private field is
unset ("Database instance is not initialized. ..."). -/
inductive InitError where
  | notInitialized
deriving DecidableEq, Repr

/-- The wrapper handle's private fields `#db` and `#schema`
(`IDBDatabase | undefined` and `IDBSchema | undefined`). -/
structure Handle where
  dbField : Option DBConn
  schemaField : Option IDBSchema
deriving DecidableEq, Repr

/-- The `get db` accessor: throws the initialization error when `#db` is
unset, otherwise returns the connection.  It never returns a null value. -/
def getDb (h : Handle) : Except InitError DBConn :=
  match h.dbField with
  | none => .error .notInitialized
  | some d => .ok d

/-- The `get schema` accessor: throws the initialization error when
`#schema` is unset, otherwise returns the schema. -/
def getSchema (h : Handle) : Except InitError IDBSchema :=
  match h.schemaField with
  | none => .error .notInitialized
  | some s => .ok s

/-- The `IDB` class constructor: `constructor(schema) { this.schema = schema }`.
It installs the schema through the setter and leaves `#db` unset. -/
def mkIDB (schema : IDBSchema) : Handle :=
  { dbField := none, schemaField := some schema }

/-! ## Database state and the `onupgradeneeded` handler -/

/-- The state of one object store in the container: its name, the options it
was created with, and the indexes that exist on it. -/
structure StoreState where
  name : String
  options : StoreOptions
  indexes : List IndexDecl
deriving DecidableEq, Repr

/-- The container's schema-level state: the object stores it holds. -/
abbrev DBState := List StoreState

/-- Lookup mirroring `transaction.objectStore(name)`: first store of the given name. -/
def findStore : DBState → String → Option StoreState
  | [], _ => none
  | st :: rest, n => if st.name == n then some st else findStore rest n

/-- Test mirroring `this.db.objectStoreNames.contains(name)`. -/
def storeNamesContain (s : DBState) (n : String) : Bool :=
  (findStore s n).isSome

/-- Test mirroring `idbObjectStore.indexNames.contains(name)`. -/
def indexNamesContain (idxs : List IndexDecl) (n : String) : Bool :=
  idxs.any (fun i => i.name == n)

/-- Replace the index list of the first store with the given name. -/
def setStoreIndexes : DBState → String → List IndexDecl → DBState
  | [], _, _ => []
  | st :: rest, n, idxs =>
    if st.name == n then { st with indexes := idxs } :: rest
    else st :: setStoreIndexes rest n idxs

/-- One host action performed by the upgrade handler, in order. -/
inductive UpgradeAction where
  /-- Assignment `this.db = result` (storing the in-progress connection). -/
  | storeConnection
  /-- Call `this.db.createObjectStore(name, options)`. -/
  | createStore (name : String) (options : StoreOptions)
  /-- Call `idbObjectStore.createIndex(name, keyPath, options)` on the named store. -/
  | createIndex (storeName : String) (idx : IndexDecl)
  /-- Invocation `callback?.onupgradeneeded?.(event)`. -/
  | invokeUpgradeCallback
deriving DecidableEq, Repr

/-- The inner loop of the existing-store branch: for each declared index, if
`idbObjectStore.indexNames` does not contain its name, create it (the name
set is consulted against the current state, so an index created earlier in
the same loop is seen by later iterations). -/
def reconcileIndexes (idxs : List IndexDecl) (decls : List IndexDecl)
    (storeName : String) : List IndexDecl × List UpgradeAction :=
  match decls with
  | [] => (idxs, [])
  | d :: rest =>
    if indexNamesContain idxs d.name then
      reconcileIndexes idxs rest storeName
    else
      let p := reconcileIndexes (idxs ++ [d]) rest storeName
      (p.1, .createIndex storeName d :: p.2)

/-- One iteration of `for (const objectStore of objectStores)` in the
`onupgradeneeded` handler:
* if the container already holds a store of that name: without an active
  upgrade transaction (`if (!transaction) continue`) nothing happens;
  otherwise each declared index missing from the store is created;
* otherwise the store is created with the declared options and every
  declared index is created on it unconditionally. -/
def processStoreDecl (hasTxn : Bool) (s : DBState) (os : StoreDecl) :
    DBState × List UpgradeAction :=
  if storeNamesContain s os.name then
    if hasTxn = false then (s, [])
    else
      match findStore s os.name with
      | none => (s, [])
      | some st =>
        match os.indexes with
        | none => (s, [])
        | some decls =>
          let p := reconcileIndexes st.indexes decls os.name
          (setStoreIndexes s os.name p.1, p.2)
  else
    (s ++ [{ name := os.name, options := os.options,
             indexes := os.indexes.getD [] }],
     .createStore os.name os.options
       :: (os.indexes.getD []).map (UpgradeAction.createIndex os.name))

/-- The handler's loop over all declared stores, threading the evolving
container state and concatenating the action traces. -/
def processStoreDecls (hasTxn : Bool) (s : DBState) :
    List StoreDecl → DBState × List UpgradeAction
  | [] => (s, [])
  | os :: rest =>
    let p := processStoreDecl hasTxn s os
    let q := processStoreDecls hasTxn p.1 rest
    (q.1, p.2 ++ q.2)

/-- The `request.onupgradeneeded` handler: stores the in-progress connection
first (`this.db = result`); if the schema declares no `objectStores` list it
returns immediately (the caller's upgrade callback is NOT invoked on that
path); otherwise it processes every declared store and finally invokes the
caller's upgrade callback.  `hasTxn` tells whether `target.transaction` was
non-null. -/
def onUpgradeNeeded (schema : IDBSchema) (hasTxn : Bool) (s : DBState) :
    DBState × List UpgradeAction :=
  match schema.objectStores with
  | none => (s, [.storeConnection])
  | some decls =>
    let p := processStoreDecls hasTxn s decls
    (p.1, .storeConnection :: p.2 ++ [.invokeUpgradeCallback])

/-! ## Transaction execution (`transaction`) and the event model

`transaction(storeNames, mode, options, callback)` registers `oncomplete`
(resolve with the callback's value) and `onerror` handlers, awaits the
callback, explicitly commits when "committable", and on a thrown/rejected
callback aborts the host transaction and rejects with the thrown error.
The run is modelled as an ordered trace of events plus the resulting store
contents; the host's documented behaviour supplies the environment:
buffered mutations are applied when the transaction fires `complete` and
discarded when it is aborted. -/

/-- The transaction modes a caller can pass (`IDBTransactionMode` without
`versionchange`, which only the host creates).  The wrapper's `mode`
parameter is optional, hence `Option TMode` below. -/
inductive TMode where
  | readonly
  | readwrite
deriving DecidableEq, Repr

/-- Host-reported DOM errors (`ConstraintError`, `DataError`, and a generic
bucket for any other host error object). -/
inductive DomErr where
  | constraintError
  | dataError
  | otherError (code : Nat)
deriving DecidableEq, Repr

/-- The settled state of a promise: resolved with a value or rejected with
an error. -/
inductive Settled (α E : Type) where
  | resolved (a : α)
  | rejected (e : E)
deriving DecidableEq, Repr

/-- The nine `IDBObjectStore` methods the wrapper dispatches on
(`IDBObjectStoreMethods`). -/
inductive StoreMethod where
  | add
  | clear
  | count
  | delete
  | get
  | getAll
  | getAllKeys
  | getKey
  | put
deriving DecidableEq, Repr

/-- Events of one `transaction` run, in the order they occur. -/
inductive TEvent (α E : Type) where
  /-- the callback issued one host object-store method call -/
  | hostCall (m : StoreMethod)
  /-- the awaited callback returned normally -/
  | callbackResolved
  /-- the awaited callback threw / rejected -/
  | callbackThrew (e : E)
  /-- explicit `transaction.commit()` was called -/
  | commitCalled
  /-- explicit `transaction.abort()` was called -/
  | abortCalled
  /-- the host fired the transaction's `complete` event -/
  | completeFired
  /-- the returned promise was resolved with this value -/
  | promiseResolved (a : α)
  /-- the returned promise was rejected with this error -/
  | promiseRejected (e : E)
deriving DecidableEq, Repr

/-- Whether an event settles the returned promise. -/
def isSettlementEv : TEvent α E → Bool
  | .promiseResolved _ => true
  | .promiseRejected _ => true
  | _ => false

/-- Whether an event is the host's `complete` event. -/
def isCompleteEv : TEvent α E → Bool
  | .completeFired => true
  | _ => false

/-- Whether an event is a host object-store method call. -/
def isHostCallEv : TEvent α E → Bool
  | .hostCall _ => true
  | _ => false

/-- Whether an event is the callback returning normally. -/
def isCallbackResolvedEv : TEvent α E → Bool
  | .callbackResolved => true
  | _ => false

/-- A promise settles once: the first settlement event of the trace wins
(`resolve` / `reject` on an already settled promise are no-ops). -/
def settlementOf : List (TEvent α E) → Option (Settled α E)
  | [] => none
  | .promiseResolved a :: _ => some (.resolved a)
  | .promiseRejected e :: _ => some (.rejected e)
  | _ :: rest => settlementOf rest

/-- Condition `"commit" in transaction && mode !== "readonly"` of the source:
the host transaction supports explicit commit and the (possibly omitted)
mode argument is not the `readonly` literal. -/
def isCommittable (hostHasCommit : Bool) (mode : Option TMode) : Bool :=
  hostHasCommit && !(mode == some TMode.readonly)

/-- Store contents of one object store: keyed records (keys abstracted to
`Nat`, record values of type `V`). -/
abbrev StoreData (V : Type) := List (Nat × V)

/-- A mutation buffered inside an open host transaction. -/
inductive StoreOp (V : Type) where
  | addRec (k : Nat) (v : V)
  | putRec (k : Nat) (v : V)
  | delRec (k : Nat)
  | clearAll
deriving DecidableEq, Repr

/-- Whether the store holds a record under the key. -/
def hasKey : StoreData V → Nat → Bool
  | [], _ => false
  | p :: rest, k => p.1 == k || hasKey rest k

/-- Apply one buffered mutation (host semantics: `add` inserts a fresh key,
`put` inserts or replaces, `delete` removes, `clear` empties). -/
def applyOp (s : StoreData V) : StoreOp V → StoreData V
  | .addRec k v => if hasKey s k then s else s ++ [(k, v)]
  | .putRec k v =>
    if hasKey s k then s.map (fun p => if p.1 == k then (k, v) else p)
    else s ++ [(k, v)]
  | .delRec k => s.filter (fun p => !(p.1 == k))
  | .clearAll => []

/-- Apply the buffered mutations in order (what the host commits). -/
def applyOps (s : StoreData V) (ops : List (StoreOp V)) : StoreData V :=
  ops.foldl applyOp s

/-- One full `transaction` run.  The callback is characterised by the host
calls it issues (`cbCalls`), the mutations those calls buffered (`cbOps`)
and its outcome (`cbOut`: a return value or a thrown error).
* On a normal return the wrapper stores the result, explicitly commits when
  committable, the host fires `complete` (auto-commit otherwise) and the
  `oncomplete` handler resolves the promise with the stored result; the
  buffered mutations become durable.
* On a thrown/rejected callback the wrapper calls `transaction.abort()` and
  rejects with the thrown error; the host discards the buffered mutations
  and never fires `complete`. -/
def runTransaction (hostHasCommit : Bool) (mode : Option TMode)
    (s : StoreData V) (cbCalls : List StoreMethod) (cbOps : List (StoreOp V))
    (cbOut : Except E α) : List (TEvent α E) × StoreData V :=
  match cbOut with
  | .ok v =>
    (cbCalls.map TEvent.hostCall ++ [TEvent.callbackResolved]
       ++ (if isCommittable hostHasCommit mode then [TEvent.commitCalled] else [])
       ++ [TEvent.completeFired, TEvent.promiseResolved v],
     applyOps s cbOps)
  | .error e =>
    (cbCalls.map TEvent.hostCall
       ++ [TEvent.callbackThrew e, TEvent.abortCalled, TEvent.promiseRejected e],
     s)

/-! ## The nine data operations -/

/-- The result value a host request's `onsuccess` delivers (`target.result`):
a key, a record, an array of records or keys, a count, or `undefined`. -/
inductive ResultVal (V : Type) where
  | key (k : Nat)
  | record (v : V)
  | records (vs : List V)
  | keys (ks : List Nat)
  | cnt (n : Nat)
  | undef
deriving DecidableEq, Repr

/-- One call to a host object-store method, with the arguments the wrapper
forwards verbatim (keys abstracted to `Nat`; `query` arguments are keys;
an omitted optional argument is `none`). -/
inductive StoreCall (V : Type) where
  | add (value : V) (key : Option Nat)
  | clear
  | count
  | delete (query : Nat)
  | get (query : Nat)
  | getAll (query : Option Nat) (cnt : Option Nat)
  | getAllKeys (query : Option Nat) (cnt : Option Nat)
  | getKey (query : Nat)
  | put (value : V) (key : Option Nat)
deriving DecidableEq, Repr

/-- The object-store method a call dispatches to. -/
def methodOf : StoreCall V → StoreMethod
  | .add _ _ => .add
  | .clear => .clear
  | .count => .count
  | .delete _ => .delete
  | .get _ => .get
  | .getAll _ _ => .getAll
  | .getAllKeys _ _ => .getAllKeys
  | .getKey _ => .getKey
  | .put _ _ => .put

/-- The transaction-mode literal each of the nine wrapper methods passes to
`this.transaction`: `"readwrite"` in `add`/`clear`/`delete`/`put`,
`"readonly"` in `count`/`get`/`getAll`/`getAllKeys`/`getKey`. -/
def modeOf : StoreCall V → TMode
  | .add _ _ => .readwrite
  | .clear => .readwrite
  | .count => .readonly
  | .delete _ => .readwrite
  | .get _ => .readonly
  | .getAll _ _ => .readonly
  | .getAllKeys _ _ => .readonly
  | .getKey _ => .readonly
  | .put _ _ => .readwrite

/-- Value of `store.get(k)`: the record under the key, if any. -/
def hostGet : StoreData V → Nat → Option V
  | [], _ => none
  | p :: rest, k => if p.1 == k then some p.2 else hostGet rest k

/-- The records matching an optional key query, truncated to an optional
count limit (host semantics of `getAll` / `getAllKeys` arguments). -/
def matchingRecs (s : StoreData V) (q : Option Nat) (c : Option Nat) :
    List (Nat × V) :=
  let m := match q with
    | none => s
    | some k => s.filter (fun p => p.1 == k)
  match c with
  | none => m
  | some n => m.take n

/-- Host evaluation of one object-store method call against the current
store contents: the mutations it buffers and the request outcome
(`onsuccess` result value or `onerror` error).  This is the host engine's
documented behaviour for a store with out-of-line keys and no key
generator: `add` on an existing key reports `ConstraintError`; `add`/`put`
without a key report `DataError`. -/
def evalCall (s : StoreData V) : StoreCall V →
    List (StoreOp V) × Except DomErr (ResultVal V)
  | .add _ none => ([], .error .dataError)
  | .add v (some k) =>
    if hasKey s k then ([], .error .constraintError)
    else ([.addRec k v], .ok (.key k))
  | .clear => ([.clearAll], .ok .undef)
  | .count => ([], .ok (.cnt s.length))
  | .delete k => ([.delRec k], .ok .undef)
  | .get k =>
    ([], .ok (match hostGet s k with
              | some v => .record v
              | none => .undef))
  | .getAll q c => ([], .ok (.records ((matchingRecs s q c).map (fun p => p.2))))
  | .getAllKeys q c => ([], .ok (.keys ((matchingRecs s q c).map (fun p => p.1))))
  | .getKey k => ([], .ok (if hasKey s k then .key k else .undef))
  | .put _ none => ([], .error .dataError)
  | .put v (some k) => ([.putRec k v], .ok (.key k))

/-- One wrapper data operation (`add`/`clear`/…/`put`): a single-store
transaction in the method's mode literal whose callback issues exactly one
host object-store method call through `#transactionCallback` (resolving
with the request's result on `onsuccess`, rejecting with the host-reported
error on `onerror`; a rejection makes `await callback` throw inside
`transaction`, which aborts and rejects). -/
def runDataOp (hostHasCommit : Bool) (s : StoreData V) (c : StoreCall V) :
    List (TEvent (ResultVal V) DomErr) × StoreData V :=
  let p := evalCall s c
  runTransaction hostHasCommit (some (modeOf c)) s [methodOf c] p.1 p.2

/-! ## Static `list()` -/

/-- Host database enumeration entry (`IDBDatabaseInfo`). -/
structure IDBDatabaseInfo where
  name : String
  version : Nat
deriving DecidableEq, Repr

/-- The host factory as `list` observes it: `databases` is `none` when the
host lacks the capability (`if (!IDB.#idb.databases)`), otherwise the
outcome of awaiting `IDB.#idb.databases()`. -/
structure IDBFactoryModel where
  databases : Option (Except DomErr (List IDBDatabaseInfo))

/-- Outcome of one `list()` call: the settled result and whether the
"not supported" warning was logged. -/
structure ListRun where
  result : Except DomErr (List IDBDatabaseInfo)
  warned : Bool
deriving Repr

/-- Static `list()`: unsupported capability degrades to a logged warning and
an empty array (no throw); otherwise the enumeration's outcome is returned,
with a host error rethrown unchanged by the `catch (error) { throw error }`
block. -/
def list (f : IDBFactoryModel) : ListRun :=
  match f.databases with
  | none => { result := .ok [], warned := true }
  | some (.ok dbs) => { result := .ok dbs, warned := false }
  | some (.error e) => { result := .error e, warned := false }

/-! ## The `open` request's event handlers -/

/-- The settled state of the promise returned by `open` (it resolves with
the handle itself, abstracted to `Unit` here). -/
inductive PromiseState (α E : Type) where
  | pending
  | resolvedWith (a : α)
  | rejectedWith (e : E)
deriving DecidableEq, Repr

/-- Settle by `resolve`: settles a pending promise, no-op afterwards. -/
def settleResolve (p : PromiseState α E) (a : α) : PromiseState α E :=
  match p with
  | .pending => .resolvedWith a
  | q => q

/-- Settle by `reject`: settles a pending promise, no-op afterwards. -/
def settleReject (p : PromiseState α E) (e : E) : PromiseState α E :=
  match p with
  | .pending => .rejectedWith e
  | q => q

/-- The events the host fires on an `IDBOpenDBRequest`. -/
inductive OpenEvent where
  | success
  | error (e : DomErr)
  | blocked
  | upgradeNeeded
deriving DecidableEq, Repr

/-- Observable state of one `open` call: whether `this.db` has been stored,
the returned promise's state, and which caller callbacks were invoked
(in order). -/
structure OpenRun where
  dbStored : Bool
  promise : PromiseState Unit DomErr
  callbacksInvoked : List OpenEvent
deriving DecidableEq, Repr

/-- The four handlers `open` registers, as one step function:
* `onsuccess`: stores the connection, invokes the success callback,
  resolves with the handle;
* `onerror`: invokes the error callback, rejects with the host error
  (the connection is not stored);
* `onblocked`: invokes the blocked callback, and nothing else — the promise
  is neither resolved nor rejected;
* `onupgradeneeded`: stores the in-progress connection and runs the schema
  application (modelled by `onUpgradeNeeded`); the caller's upgrade callback
  is invoked only when the schema declares an `objectStores` list. -/
def stepOpen (schema : IDBSchema) (st : OpenRun) : OpenEvent → OpenRun
  | .success =>
    { dbStored := true
      promise := settleResolve st.promise ()
      callbacksInvoked := st.callbacksInvoked ++ [.success] }
  | .error e =>
    { st with
      promise := settleReject st.promise e
      callbacksInvoked := st.callbacksInvoked ++ [.error e] }
  | .blocked =>
    { st with callbacksInvoked := st.callbacksInvoked ++ [.blocked] }
  | .upgradeNeeded =>
    { dbStored := true
      promise := st.promise
      callbacksInvoked := st.callbacksInvoked
        ++ (if schema.objectStores.isSome then [.upgradeNeeded] else []) }

/-! ## Auxiliary predicates for the upgrade-idempotence development -/

/-- Growth order on container states: every store keeps existing (under
`findStore`) and its index-name set only grows.  The upgrade handler only
adds stores and indexes, so each step is monotone for this order. -/
def storeLe (s t : DBState) : Prop :=
  ∀ n st, findStore s n = some st →
    ∃ st', findStore t n = some st' ∧
      ∀ m, indexNamesContain st.indexes m = true →
        indexNamesContain st'.indexes m = true

/-- A store declaration is satisfied by a container state when the store
exists and (when an upgrade transaction is available, `b = true`) every
declared index name is present on it.  Processing a satisfied declaration
is a no-op. -/
def declSatisfied (b : Bool) (s : DBState) (os : StoreDecl) : Bool :=
  match findStore s os.name with
  | none => false
  | some st =>
    !b || (os.indexes.getD []).all (fun d => indexNamesContain st.indexes d.name)

/-! ## Concrete demonstration inputs -/

/-- A schema that declares no `objectStores` list. -/
def demoSchema : IDBSchema :=
  { name := "T", version := some 1, objectStores := none }

/-- Concrete store options. -/
def demoOpts : StoreOptions :=
  { keyPath := some ["id"], autoIncrement := false }

/-- A concrete index declaration. -/
def demoIdx : IndexDecl :=
  { name := "byName", keyPath := ["n"],
    options := { unique := false, multiEntry := false } }

/-- A concrete store declaration with one index. -/
def demoDecl : StoreDecl :=
  { name := "users", options := demoOpts, indexes := some [demoIdx] }

/-- A schema declaring the single store `users`. -/
def demoSchema2 : IDBSchema :=
  { name := "T", version := some 1, objectStores := some [demoDecl] }

/-- A container state already holding `users` with its index. -/
def demoState : DBState :=
  [{ name := "users", options := demoOpts, indexes := [demoIdx] }]

/-- A host factory without the `databases` capability. -/
def factoryNoEnum : IDBFactoryModel := { databases := none }

/-- A host factory whose enumeration succeeds with one entry. -/
def factoryOk : IDBFactoryModel :=
  { databases := some (.ok [{ name := "a", version := 1 }]) }

/-- A host factory whose enumeration itself reports an error. -/
def factoryErr : IDBFactoryModel :=
  { databases := some (.error (.otherError 7)) }

/-- An `open` call's state before any event fired. -/
def openStart : OpenRun :=
  { dbStored := false, promise := .pending, callbacksInvoked := [] }

/-! # Theorems -/

/-! ## C1: accessors on a never-opened handle -/

/-- C1 counterexample: the claim says that on a never-opened handle the
`schema` accessor throws an initialization error.  On the concrete
never-opened handle `mkIDB demoSchema` it instead returns the schema
installed by the constructor (`constructor(schema) { this.schema = schema }`),
so the claim as stated is false. -/
theorem schema_accessor_fresh_handle_ok :
    getSchema (mkIDB demoSchema) = Except.ok demoSchema := rfl

/-- C1 (amended): on a freshly constructed, never-opened handle the `db`
accessor fails synchronously with the initialization error, while the
`schema` accessor returns the schema installed by the constructor without
throwing; neither accessor ever yields a null/undefined value (both are
total and return either the error or a present value). -/
theorem accessors_fresh_handle (s : IDBSchema) :
    getDb (mkIDB s) = Except.error InitError.notInitialized ∧
    getSchema (mkIDB s) = Except.ok s :=
  ⟨rfl, rfl⟩

/-! ## C7: static `list()` -/

/-- C7: `list()` returns the host enumeration when supported; when the host
lacks the `databases` capability it logs a warning and returns an empty
array without throwing; an error reported by the enumeration itself is
propagated unchanged. -/
theorem list_capability_contract (f : IDBFactoryModel) :
    (f.databases = none → list f = { result := .ok [], warned := true }) ∧
    (∀ l, f.databases = some (.ok l) →
       list f = { result := .ok l, warned := false }) ∧
    (∀ e, f.databases = some (.error e) →
       list f = { result := .error e, warned := false }) := by
  refine ⟨fun h => ?_, fun l h => ?_, fun e h => ?_⟩ <;> simp [list, h]

/-- C7 witness: the three branches of `list_capability_contract` at concrete
host factories. -/
theorem list_capability_contract_apply :
    list factoryNoEnum = { result := .ok [], warned := true } ∧
    list factoryOk = { result := .ok [{ name := "a", version := 1 }], warned := false } ∧
    list factoryErr = { result := .error (.otherError 7), warned := false } :=
  ⟨(list_capability_contract factoryNoEnum).1 rfl,
   (list_capability_contract factoryOk).2.1 _ rfl,
   (list_capability_contract factoryErr).2.2 _ rfl⟩

/-! ## C8: the `onblocked` handler -/

/-- C8: on the host's `blocked` event the wrapper only invokes the caller's
blocked callback: the stored-connection flag and the promise are untouched
(in particular a pending promise stays pending — neither resolved nor
rejected). -/
theorem blocked_only_invokes_callback (schema : IDBSchema) (st : OpenRun) :
    (stepOpen schema st .blocked).promise = st.promise ∧
    (stepOpen schema st .blocked).dbStored = st.dbStored ∧
    (stepOpen schema st .blocked).callbacksInvoked
      = st.callbacksInvoked ++ [OpenEvent.blocked] ∧
    (st.promise = .pending → (stepOpen schema st .blocked).promise = .pending) := by
  refine ⟨rfl, rfl, rfl, fun h => ?_⟩
  simp [stepOpen, h]

/-- C8 witness: before any event the promise is pending, and after the
`blocked` event it is still pending. -/
theorem blocked_only_invokes_callback_apply :
    (stepOpen demoSchema openStart .blocked).promise = PromiseState.pending :=
  (blocked_only_invokes_callback demoSchema openStart).2.2.2 rfl

/-! ## Transaction lifecycle lemmas -/

/-- Host object-store calls issued by the callback settle nothing: the first
settlement of the trace is found after them. -/
theorem settlementOf_hostCalls_append (cbCalls : List StoreMethod)
    (tr : List (TEvent α E)) :
    settlementOf (cbCalls.map TEvent.hostCall ++ tr) = settlementOf tr := by
  induction cbCalls with
  | nil => rfl
  | cons m rest ih => simpa [settlementOf] using ih

/-- The `takeWhile` of a trace runs past the callback's host calls whenever the predicate
holds on host-call events. -/
theorem takeWhile_hostCalls_append (p : TEvent α E → Bool)
    (cbCalls : List StoreMethod) (tr : List (TEvent α E))
    (h : ∀ m, p (TEvent.hostCall m) = true) :
    (cbCalls.map TEvent.hostCall ++ tr).takeWhile p
      = cbCalls.map TEvent.hostCall ++ tr.takeWhile p := by
  induction cbCalls with
  | nil => rfl
  | cons m rest ih => simp [List.takeWhile_cons, h, ih]

/-! ## C4: callback failure aborts and nothing persists -/

/-- C4: when the transaction callback throws or rejects with `e`, the
wrapper calls `transaction.abort()` and the returned promise is rejected
with that same thrown error; the host never fires `complete`, so the
store's records are exactly what they were before the transaction — in
particular any mutation buffered by the callback (such as an `add` in a
read-write transaction) does not persist. -/
theorem transaction_callback_throw_aborts (hhc : Bool) (mode : Option TMode)
    (s : StoreData V) (cbCalls : List StoreMethod) (cbOps : List (StoreOp V))
    (e : E) :
    (runTransaction hhc mode s cbCalls cbOps (Except.error e : Except E α)).2 = s ∧
    TEvent.abortCalled ∈
      (runTransaction hhc mode s cbCalls cbOps (Except.error e : Except E α)).1 ∧
    settlementOf
      (runTransaction hhc mode s cbCalls cbOps (Except.error e : Except E α)).1
      = some (Settled.rejected e) ∧
    TEvent.completeFired ∉
      (runTransaction hhc mode s cbCalls cbOps (Except.error e : Except E α)).1 := by
  refine ⟨rfl, ?_, ?_, ?_⟩
  · simp [runTransaction]
  · simpa [runTransaction] using
      settlementOf_hostCalls_append (α := α) (E := E) cbCalls
        [TEvent.callbackThrew e, TEvent.abortCalled, TEvent.promiseRejected e]
  · simp [runTransaction]

/-! ## C5: callback success, commit policy, completion-driven resolution -/

/-- C5: when the callback returns `v`, the promise settles as resolved with
`v`; no settlement happens before the host fires `complete` (resolution is
driven by the completion event); an explicit `transaction.commit()` appears
in the run exactly when the host transaction supports explicit commit and
the mode argument is not the `readonly` literal; and the commit is issued
only after the callback has resolved. -/
theorem transaction_success_contract (hhc : Bool) (mode : Option TMode)
    (s : StoreData V) (cbCalls : List StoreMethod) (cbOps : List (StoreOp V))
    (v : α) :
    settlementOf
      (runTransaction hhc mode s cbCalls cbOps (Except.ok v : Except E α)).1
      = some (Settled.resolved v) ∧
    settlementOf
      (((runTransaction hhc mode s cbCalls cbOps (Except.ok v : Except E α)).1).takeWhile
        (fun ev => !(isCompleteEv ev))) = none ∧
    (TEvent.commitCalled ∈
        (runTransaction hhc mode s cbCalls cbOps (Except.ok v : Except E α)).1
      ↔ (hhc = true ∧ mode ≠ some TMode.readonly)) ∧
    TEvent.commitCalled ∉
      (((runTransaction hhc mode s cbCalls cbOps (Except.ok v : Except E α)).1).takeWhile
        (fun ev => !(isCallbackResolvedEv ev))) := by
  have hCommit : (isCommittable hhc mode = true) ↔ (hhc = true ∧ mode ≠ some TMode.readonly) := by
    simp [isCommittable]
  refine ⟨?_, ?_, ?_, ?_⟩
  · cases hc : isCommittable hhc mode <;>
      simpa [runTransaction, hc] using
        settlementOf_hostCalls_append (α := α) (E := E) cbCalls _
  · cases hc : isCommittable hhc mode <;>
      simp [runTransaction, hc, takeWhile_hostCalls_append,
        settlementOf_hostCalls_append, List.takeWhile_cons, isCompleteEv,
        settlementOf]
  · cases hc : isCommittable hhc mode
    · have hneg : ¬(hhc = true ∧ mode ≠ some TMode.readonly) := by
        rw [← hCommit]
        simp [hc]
      simp [runTransaction, hc, hneg]
    · simp only [runTransaction, hc, if_true]
      simp only [List.mem_append, List.mem_cons, List.mem_map]
      simp [hCommit.mp hc]
  · cases hc : isCommittable hhc mode <;>
      simp [runTransaction, hc, takeWhile_hostCalls_append,
        List.takeWhile_cons, isCallbackResolvedEv]

/-- Filtering a run's trace for host object-store calls returns exactly the
calls the callback issued, in order. -/
theorem filter_hostCalls_append (cbCalls : List StoreMethod)
    (tr : List (TEvent α E)) :
    (cbCalls.map TEvent.hostCall ++ tr).filter isHostCallEv
      = cbCalls.map TEvent.hostCall ++ tr.filter isHostCallEv := by
  induction cbCalls with
  | nil => rfl
  | cons m rest ih => simp [List.filter_cons, isHostCallEv, ih]

/-! ## C6: the nine data operations -/

/-- C6: each data operation opens its single-store transaction in the mode
literal of the source (`readonly` exactly for the five query methods,
`readwrite` exactly for the four mutating ones), issues exactly one host
object-store method call, and bridges it: when the host request succeeds
with result `r` the promise resolves with `r`; when the host request
reports error `e` the promise rejects with that same error object and the
store contents are unchanged.  There is no retry: the trace holds a single
host call either way. -/
theorem data_op_contract (hhc : Bool) (s : StoreData V) (c : StoreCall V) :
    (modeOf c = TMode.readonly ↔
       methodOf c ∈ [StoreMethod.count, StoreMethod.get, StoreMethod.getAll,
                     StoreMethod.getAllKeys, StoreMethod.getKey]) ∧
    (modeOf c = TMode.readwrite ↔
       methodOf c ∈ [StoreMethod.add, StoreMethod.clear, StoreMethod.delete,
                     StoreMethod.put]) ∧
    ((runDataOp hhc s c).1.filter isHostCallEv
       = [TEvent.hostCall (methodOf c)]) ∧
    (∀ ops r, evalCall s c = (ops, Except.ok r) →
       settlementOf (runDataOp hhc s c).1 = some (Settled.resolved r)) ∧
    (∀ ops e, evalCall s c = (ops, Except.error e) →
       settlementOf (runDataOp hhc s c).1 = some (Settled.rejected e) ∧
       (runDataOp hhc s c).2 = s) := by
  refine ⟨?_, ?_, ?_, ?_, ?_⟩
  · cases c <;> simp [modeOf, methodOf]
  · cases c <;> simp [modeOf, methodOf]
  · rcases hp : evalCall s c with ⟨ops, out⟩
    cases out <;> cases hc : isCommittable hhc (some (modeOf c)) <;>
      simp [runDataOp, hp, runTransaction, hc, filter_hostCalls_append,
        List.filter_cons, isHostCallEv]
  · intro ops r h
    cases hc : isCommittable hhc (some (modeOf c)) <;>
      simp [runDataOp, h, runTransaction, hc, settlementOf_hostCalls_append,
        settlementOf]
  · intro ops e h
    exact ⟨by
      simp [runDataOp, h, runTransaction, settlementOf_hostCalls_append,
        settlementOf], by simp [runDataOp, h, runTransaction]⟩

/-- C6 witness: a `put` on an empty store resolves with the key and issues
exactly one host call; an `add` on an occupied key rejects with the
host-reported `ConstraintError`. -/
theorem data_op_contract_apply :
    ((runDataOp true ([] : StoreData String) (StoreCall.put "a" (some 1))).1.filter
        isHostCallEv = [TEvent.hostCall StoreMethod.put]) ∧
    (settlementOf (runDataOp true ([] : StoreData String)
        (StoreCall.put "a" (some 1))).1
      = some (Settled.resolved (ResultVal.key 1))) ∧
    (settlementOf (runDataOp true ([(1, "a")] : StoreData String)
        (StoreCall.add "b" (some 1))).1
      = some (Settled.rejected DomErr.constraintError)) :=
  ⟨(data_op_contract true [] (StoreCall.put "a" (some 1))).2.2.1,
   (data_op_contract true [] (StoreCall.put "a" (some 1))).2.2.2.1
     [StoreOp.putRec 1 "a"] _ rfl,
   ((data_op_contract true [(1, "a")] (StoreCall.add "b" (some 1))).2.2.2.2
     [] _ rfl).1⟩

/-! ## C9: put/get roundtrip -/

/-- A `put` mutation makes `get` on the same key see exactly the stored
value (host store semantics). -/
theorem hostGet_putList (s : StoreData V) (k : Nat) (v : V)
    (hk : hasKey s k = true) :
    hostGet (s.map (fun p => if p.1 == k then (k, v) else p)) k = some v := by
  induction s with
  | nil => simp [hasKey] at hk
  | cons p rest ih =>
    cases hpk : (p.1 == k) with
    | true => simp [hostGet, hpk]
    | false =>
      have hk' : hasKey rest k = true := by simpa [hasKey, hpk] using hk
      simpa [hostGet, hpk] using ih hk'

/-- Appending a fresh binding makes `get` on its key see the new value. -/
theorem hostGet_appendNew (s : StoreData V) (k : Nat) (v : V)
    (hk : hasKey s k = false) :
    hostGet (s ++ [(k, v)]) k = some v := by
  induction s with
  | nil => simp [hostGet]
  | cons p rest ih =>
    cases hpk : (p.1 == k) with
    | true => simp [hasKey, hpk] at hk
    | false =>
      have hk' : hasKey rest k = false := by simpa [hasKey, hpk] using hk
      simpa [hostGet, hpk] using ih hk'

/-- The record stored under a key after applying a `put` mutation is the
value that was put. -/
theorem hostGet_applyPut (s : StoreData V) (k : Nat) (v : V) :
    hostGet (applyOp s (StoreOp.putRec k v)) k = some v := by
  by_cases hk : hasKey s k = true
  · simpa [applyOp, hk] using hostGet_putList s k v hk
  · have hk' : hasKey s k = false := by simpa using hk
    simpa [applyOp, hk'] using hostGet_appendNew s k v hk'

/-- C9: a successful `put` of value `v` under key `k` resolves with the key,
and an immediately following `get` with the same key (no intervening
mutation) resolves with a value equal to the one stored. -/
theorem put_get_roundtrip (hhc : Bool) (s : StoreData V) (k : Nat) (v : V) :
    settlementOf (runDataOp hhc s (StoreCall.put v (some k))).1
      = some (Settled.resolved (ResultVal.key k)) ∧
    settlementOf (runDataOp hhc
        (runDataOp hhc s (StoreCall.put v (some k))).2 (StoreCall.get k)).1
      = some (Settled.resolved (ResultVal.record v)) := by
  have hstore : (runDataOp hhc s (StoreCall.put v (some k))).2
      = applyOp s (StoreOp.putRec k v) := by
    simp [runDataOp, evalCall, runTransaction, applyOps]
  constructor
  · cases hhc <;>
      simp [runDataOp, evalCall, runTransaction, modeOf, isCommittable,
        settlementOf_hostCalls_append, settlementOf]
  · rw [hstore]
    have hg := hostGet_applyPut s k v
    simp [runDataOp, evalCall, runTransaction, modeOf, isCommittable, hg,
      settlementOf_hostCalls_append, settlementOf]

/-! ## Upgrade-handler lemmas -/

/-- The existing-store index loop only ever emits index-creation calls on
the store it reconciles. -/
theorem reconcile_trace_shape (idxs decls : List IndexDecl) (sn : String) :
    ∀ a ∈ (reconcileIndexes idxs decls sn).2,
      ∃ d, a = UpgradeAction.createIndex sn d := by
  induction decls generalizing idxs with
  | nil => simp [reconcileIndexes]
  | cons d rest ih =>
    intro a ha
    by_cases h : indexNamesContain idxs d.name = true
    · exact ih idxs a (by simpa [reconcileIndexes, h] using ha)
    · have h' : indexNamesContain idxs d.name = false := by simpa using h
      rw [reconcileIndexes] at ha
      simp only [h', Bool.false_eq_true, if_false, List.mem_cons] at ha
      rcases ha with rfl | ha
      · exact ⟨d, rfl⟩
      · exact ih (idxs ++ [d]) a ha

/-! ## C2: the upgrade-needed procedure -/

/-- C2 counterexample: for a schema that declares no `objectStores` list the
handler returns right after storing the connection — the caller's upgrade
callback is never invoked, so the claim's "finally ... invokes the caller's
upgrade callback", quantified over every schema, is false on this concrete
input. -/
theorem upgrade_callback_skipped_no_decls :
    UpgradeAction.invokeUpgradeCallback ∉ (onUpgradeNeeded demoSchema true []).2 := by
  decide

/-- C2 (amended): when the schema declares an `objectStores` list, the
upgrade handler stores the in-progress connection first, and invokes the
caller's upgrade callback last; each declared store is processed against
the container state at its turn: an already-existing name triggers no
store-creation call, while a fresh name is created with its declared
options and then every declared index is created on it unconditionally, in
order.  (When the schema declares no `objectStores` list the handler stores
the connection and returns without invoking the callback.) -/
theorem upgrade_handler_contract (schema : IDBSchema) (decls : List StoreDecl)
    (b : Bool) (s : DBState) (h : schema.objectStores = some decls) :
    (onUpgradeNeeded schema b s).2.head? = some UpgradeAction.storeConnection ∧
    (onUpgradeNeeded schema b s).2.getLast?
      = some UpgradeAction.invokeUpgradeCallback ∧
    (∀ s' os, storeNamesContain s' os.name = true →
       ∀ opts, UpgradeAction.createStore os.name opts
         ∉ (processStoreDecl b s' os).2) ∧
    (∀ s' os, storeNamesContain s' os.name = false →
       (processStoreDecl b s' os).2
         = UpgradeAction.createStore os.name os.options
             :: (os.indexes.getD []).map (UpgradeAction.createIndex os.name)) := by
  refine ⟨?_, ?_, ?_, ?_⟩
  · simp [onUpgradeNeeded, h]
  · simp only [onUpgradeNeeded, h]
    rw [List.getLast?_append_cons]
    rfl
  · intro s' os hs opts hmem
    rcases hF : findStore s' os.name with _ | st
    · simp [storeNamesContain, hF] at hs
    · cases b with
      | false => simp [processStoreDecl, hs] at hmem
      | true =>
        rcases hI : os.indexes with _ | decls0
        · simp [processStoreDecl, hs, hF, hI] at hmem
        · rw [processStoreDecl] at hmem
          simp only [hs, if_true, Bool.true_eq_false, if_false, hF, hI] at hmem
          rcases reconcile_trace_shape st.indexes decls0 os.name _ hmem with ⟨d, hd⟩
          exact absurd hd (by simp)
  · intro s' os hs
    simp [processStoreDecl, hs]

/-- C2 witness: on the one-store schema `demoSchema2` against an empty
container, the trace starts with connection storage; on the occupied state
`demoState` the declaration triggers no creation; on the empty state it is
created and its declared index is created. -/
theorem upgrade_handler_contract_apply :
    (onUpgradeNeeded demoSchema2 true []).2.head?
      = some UpgradeAction.storeConnection ∧
    UpgradeAction.createStore "users" demoOpts
      ∉ (processStoreDecl true demoState demoDecl).2 ∧
    (processStoreDecl true [] demoDecl).2
      = UpgradeAction.createStore "users" demoOpts
          :: [UpgradeAction.createIndex "users" demoIdx] :=
  ⟨(upgrade_handler_contract demoSchema2 [demoDecl] true [] rfl).1,
   (upgrade_handler_contract demoSchema2 [demoDecl] true [] rfl).2.2.1
     demoState demoDecl rfl demoOpts,
   (upgrade_handler_contract demoSchema2 [demoDecl] true [] rfl).2.2.2
     [] demoDecl rfl⟩

/-! ## C10: existing store with no upgrade transaction -/

/-- C10: during the upgrade handler, a declared store whose name already
exists is skipped entirely when the upgrade request exposes no active
transaction (`if (!transaction) continue`): no index reconciliation
happens, no host call is made, no error is raised (the step is a total
no-op on the state), and processing continues with the remaining declared
stores exactly as if this declaration were absent. -/
theorem existing_store_skipped_without_txn (s : DBState) (os : StoreDecl)
    (h : storeNamesContain s os.name = true) :
    processStoreDecl false s os = (s, []) ∧
    ∀ rest, processStoreDecls false s (os :: rest)
      = processStoreDecls false s rest := by
  have h1 : processStoreDecl false s os = (s, []) := by
    simp [processStoreDecl, h]
  refine ⟨h1, fun rest => ?_⟩
  simp [processStoreDecls, h1]

/-- C10 witness: the concrete occupied state and declaration. -/
theorem existing_store_skipped_without_txn_apply :
    processStoreDecl false demoState demoDecl = (demoState, []) :=
  (existing_store_skipped_without_txn demoState demoDecl rfl).1

/-! ## Index-containment and reconciliation lemmas -/

/-- Containment of an index name survives appending declarations. -/
theorem indexNamesContain_append_left (idxs l : List IndexDecl) (n : String)
    (h : indexNamesContain idxs n = true) :
    indexNamesContain (idxs ++ l) n = true := by
  simp only [indexNamesContain, List.any_append, Bool.or_eq_true]
  exact Or.inl h

/-- A declaration's own name is contained in any list holding it. -/
theorem indexNamesContain_of_mem (l : List IndexDecl) (d : IndexDecl)
    (hd : d ∈ l) : indexNamesContain l d.name = true := by
  simp only [indexNamesContain, List.any_eq_true]
  exact ⟨d, hd, by simp⟩

/-- Reconciliation only adds indexes: containment is preserved. -/
theorem reconcile_mono (idxs decls : List IndexDecl) (sn n : String)
    (h : indexNamesContain idxs n = true) :
    indexNamesContain (reconcileIndexes idxs decls sn).1 n = true := by
  induction decls generalizing idxs with
  | nil => simpa [reconcileIndexes] using h
  | cons d rest ih =>
    by_cases hd : indexNamesContain idxs d.name = true
    · simpa [reconcileIndexes, hd] using ih idxs h
    · have hd' : indexNamesContain idxs d.name = false := by simpa using hd
      simpa [reconcileIndexes, hd'] using
        ih (idxs ++ [d]) (indexNamesContain_append_left idxs [d] n h)

/-- After reconciliation every declared index name is present. -/
theorem reconcile_covers (idxs decls : List IndexDecl) (sn : String) :
    ∀ d ∈ decls,
      indexNamesContain (reconcileIndexes idxs decls sn).1 d.name = true := by
  induction decls generalizing idxs with
  | nil => simp
  | cons d0 rest ih =>
    intro d hd
    by_cases h0 : indexNamesContain idxs d0.name = true
    · rcases List.mem_cons.mp hd with rfl | hmem
      · simpa [reconcileIndexes, h0] using reconcile_mono idxs rest sn d.name h0
      · simpa [reconcileIndexes, h0] using ih idxs d hmem
    · have h0' : indexNamesContain idxs d0.name = false := by simpa using h0
      rcases List.mem_cons.mp hd with rfl | hmem
      · have hin : indexNamesContain (idxs ++ [d]) d.name = true := by
          simp only [indexNamesContain, List.any_append, Bool.or_eq_true]
          exact Or.inr (indexNamesContain_of_mem [d] d (by simp))
        simpa [reconcileIndexes, h0'] using
          reconcile_mono (idxs ++ [d]) rest sn d.name hin
      · simpa [reconcileIndexes, h0'] using ih (idxs ++ [d0]) d hmem

/-- When every declared index name is already present, reconciliation does
nothing: same index list, empty trace. -/
theorem reconcile_noop (idxs decls : List IndexDecl) (sn : String)
    (h : ∀ d ∈ decls, indexNamesContain idxs d.name = true) :
    reconcileIndexes idxs decls sn = (idxs, []) := by
  induction decls with
  | nil => rfl
  | cons d rest ih =>
    have hd := h d (by simp)
    simp [reconcileIndexes, hd, ih (fun d' hd' => h d' (by simp [hd']))]

/-- An index name already present before the loop is never re-created by it
(the existence check guards every creation, and the present-set only
grows). -/
theorem reconcile_no_recreate (idxs decls : List IndexDecl) (sn : String)
    (n : String) (h : indexNamesContain idxs n = true) :
    ∀ d, d.name = n →
      UpgradeAction.createIndex sn d ∉ (reconcileIndexes idxs decls sn).2 := by
  induction decls generalizing idxs with
  | nil => intro d _; simp [reconcileIndexes]
  | cons d0 rest ih =>
    intro d hdn hmem
    by_cases h0 : indexNamesContain idxs d0.name = true
    · exact ih idxs h d hdn (by simpa [reconcileIndexes, h0] using hmem)
    · have h0' : indexNamesContain idxs d0.name = false := by simpa using h0
      rw [reconcileIndexes] at hmem
      simp only [h0', Bool.false_eq_true, if_false, List.mem_cons] at hmem
      rcases hmem with heq | hmem
      · have hdd : d = d0 := by
          simpa [UpgradeAction.createIndex.injEq] using heq
        rw [← hdd, hdn] at h0'
        simp [h] at h0'
      · exact ih (idxs ++ [d0]) (indexNamesContain_append_left idxs [d0] n h)
          d hdn hmem

/-! ## `findStore` / `setStoreIndexes` lemmas -/

/-- A store found on the left of an append is found in the append. -/
theorem findStore_append_some (s t : DBState) (n : String) (st : StoreState)
    (h : findStore s n = some st) : findStore (s ++ t) n = some st := by
  induction s with
  | nil => exact absurd h (by simp [findStore])
  | cons st0 rest ih =>
    cases h0 : (st0.name == n) with
    | true =>
      rw [List.cons_append]
      simp [findStore, h0] at h ⊢
      exact h
    | false =>
      rw [List.cons_append]
      simp [findStore, h0] at h ⊢
      exact ih h

/-- When the left part lacks the name, lookup continues on the right. -/
theorem findStore_append_none (s t : DBState) (n : String)
    (h : findStore s n = none) : findStore (s ++ t) n = findStore t n := by
  induction s with
  | nil => rfl
  | cons st0 rest ih =>
    cases h0 : (st0.name == n) with
    | true => simp [findStore, h0] at h
    | false =>
      rw [List.cons_append]
      simp only [findStore, h0, Bool.false_eq_true, if_false] at h ⊢
      exact ih h

/-- Setting the indexes of an existing store changes exactly that store's
index list under lookup. -/
theorem findStore_setStoreIndexes_self (s : DBState) (n : String)
    (idxs : List IndexDecl) (st : StoreState) (h : findStore s n = some st) :
    findStore (setStoreIndexes s n idxs) n = some { st with indexes := idxs } := by
  induction s with
  | nil => exact absurd h (by simp [findStore])
  | cons st0 rest ih =>
    cases h0 : (st0.name == n) with
    | true =>
      have hst : st0 = st := by simpa [findStore, h0] using h
      subst hst
      simp [setStoreIndexes, findStore, h0]
    | false =>
      have h' : findStore rest n = some st := by simpa [findStore, h0] using h
      simp only [setStoreIndexes, h0, Bool.false_eq_true, if_false, findStore]
      exact ih h'

/-- Setting the indexes of store `n` leaves lookup of any other name
unchanged. -/
theorem findStore_setStoreIndexes_other (s : DBState) (n m : String)
    (idxs : List IndexDecl) (hnm : m ≠ n) :
    findStore (setStoreIndexes s n idxs) m = findStore s m := by
  induction s with
  | nil => rfl
  | cons st0 rest ih =>
    cases h0 : (st0.name == n) with
    | true =>
      have hname : st0.name = n := by simpa using h0
      have hm : (st0.name == m) = false := by
        simp [hname]
        exact fun he => hnm he.symm
      simp [setStoreIndexes, findStore, h0, hm]
    | false =>
      simp only [setStoreIndexes, h0, Bool.false_eq_true, if_false]
      cases hm : (st0.name == m) with
      | true => simp [findStore, hm]
      | false =>
        simp only [findStore, hm, Bool.false_eq_true, if_false]
        exact ih

/-- Re-installing a store's own index list is a no-op on the state. -/
theorem setStoreIndexes_self_noop (s : DBState) (n : String) (st : StoreState)
    (h : findStore s n = some st) : setStoreIndexes s n st.indexes = s := by
  induction s with
  | nil => rfl
  | cons st0 rest ih =>
    cases h0 : (st0.name == n) with
    | true =>
      have hst : st0 = st := by simpa [findStore, h0] using h
      subst hst
      simp [setStoreIndexes, h0]
    | false =>
      have h' : findStore rest n = some st := by simpa [findStore, h0] using h
      simp only [setStoreIndexes, h0, Bool.false_eq_true, if_false]
      rw [ih h']

/-! ## Monotonicity of the upgrade step -/

theorem storeLe_refl (s : DBState) : storeLe s s :=
  fun _ st h => ⟨st, h, fun _ hm => hm⟩

theorem storeLe_trans {s t u : DBState} (h1 : storeLe s t) (h2 : storeLe t u) :
    storeLe s u := by
  intro n st h
  rcases h1 n st h with ⟨st', h', mono'⟩
  rcases h2 n st' h' with ⟨st'', h'', mono''⟩
  exact ⟨st'', h'', fun m hm => mono'' m (mono' m hm)⟩

/-- Containment of a store name is preserved along `storeLe`. -/
theorem storeNamesContain_mono {s t : DBState} (h : storeLe s t) (n : String)
    (hn : storeNamesContain s n = true) : storeNamesContain t n = true := by
  rcases hF : findStore s n with _ | st
  · simp [storeNamesContain, hF] at hn
  · rcases h n st hF with ⟨st', hst', _⟩
    simp [storeNamesContain, hst']

/-- One upgrade-loop iteration only grows the container state. -/
theorem processStoreDecl_le (b : Bool) (s : DBState) (os : StoreDecl) :
    storeLe s (processStoreDecl b s os).1 := by
  by_cases hc : storeNamesContain s os.name = true
  · cases b with
    | false => simpa [processStoreDecl, hc] using storeLe_refl s
    | true =>
      rcases hF : findStore s os.name with _ | st
      · simp [storeNamesContain, hF] at hc
      · rcases hI : os.indexes with _ | decls0
        · simpa [processStoreDecl, hc, hF, hI] using storeLe_refl s
        · have hstate : (processStoreDecl true s os).1
              = setStoreIndexes s os.name
                  (reconcileIndexes st.indexes decls0 os.name).1 := by
            simp [processStoreDecl, hc, hF, hI]
          rw [hstate]
          intro n st1 h1
          by_cases hn : n = os.name
          · subst hn
            have hst : st1 = st := by
              rw [h1] at hF
              exact Option.some.inj hF
            subst hst
            exact ⟨{ st1 with
                indexes := (reconcileIndexes st1.indexes decls0 os.name).1 },
              findStore_setStoreIndexes_self s os.name _ st1 h1,
              fun m hm => reconcile_mono st1.indexes decls0 os.name m hm⟩
          · exact ⟨st1,
              by rw [findStore_setStoreIndexes_other s os.name n _ hn]; exact h1,
              fun m hm => hm⟩
  · have hc' : storeNamesContain s os.name = false := by simpa using hc
    have hstate : (processStoreDecl b s os).1
        = s ++ [{ name := os.name, options := os.options,
                  indexes := os.indexes.getD [] }] := by
      simp [processStoreDecl, hc']
    rw [hstate]
    intro n st1 h1
    exact ⟨st1, findStore_append_some s _ n st1 h1, fun m hm => hm⟩

/-- The whole upgrade loop only grows the container state. -/
theorem processStoreDecls_le (b : Bool) (decls : List StoreDecl) (s : DBState) :
    storeLe s (processStoreDecls b s decls).1 := by
  induction decls generalizing s with
  | nil => exact storeLe_refl s
  | cons os rest ih =>
    have hstate : (processStoreDecls b s (os :: rest)).1
        = (processStoreDecls b (processStoreDecl b s os).1 rest).1 := by
      simp [processStoreDecls]
    rw [hstate]
    exact storeLe_trans (processStoreDecl_le b s os)
      (ih (processStoreDecl b s os).1)

/-! ## No re-creation of existing stores and indexes -/

/-- One iteration never emits a store-creation call for a name that already
exists in the state it runs against. -/
theorem processStoreDecl_no_createStore (b : Bool) (s : DBState)
    (os : StoreDecl) (n : String) (hn : storeNamesContain s n = true)
    (opts : StoreOptions) :
    UpgradeAction.createStore n opts ∉ (processStoreDecl b s os).2 := by
  intro hmem
  by_cases hc : storeNamesContain s os.name = true
  · rcases hF : findStore s os.name with _ | st
    · simp [storeNamesContain, hF] at hc
    · cases b with
      | false => simp [processStoreDecl, hc] at hmem
      | true =>
        rcases hI : os.indexes with _ | decls0
        · simp [processStoreDecl, hc, hF, hI] at hmem
        · have htr : (processStoreDecl true s os).2
              = (reconcileIndexes st.indexes decls0 os.name).2 := by
            simp [processStoreDecl, hc, hF, hI]
          rw [htr] at hmem
          rcases reconcile_trace_shape st.indexes decls0 os.name _ hmem with ⟨d, hd⟩
          exact absurd hd (by simp)
  · have hc' : storeNamesContain s os.name = false := by simpa using hc
    have htr : (processStoreDecl b s os).2
        = UpgradeAction.createStore os.name os.options
            :: (os.indexes.getD []).map (UpgradeAction.createIndex os.name) := by
      simp [processStoreDecl, hc']
    rw [htr] at hmem
    rcases List.mem_cons.mp hmem with heq | hmem'
    · have hne : n = os.name := by
        have h' := heq
        simp only [UpgradeAction.createStore.injEq] at h'
        exact h'.1
      rw [hne] at hn
      simp [hn] at hc'
    · rcases List.mem_map.mp hmem' with ⟨d, _, hd⟩
      exact absurd hd.symm (by simp)

/-- The whole upgrade loop never emits a store-creation call for a name
already present before it ran. -/
theorem processStoreDecls_no_createStore (b : Bool) (decls : List StoreDecl)
    (s : DBState) (n : String) (hn : storeNamesContain s n = true)
    (opts : StoreOptions) :
    UpgradeAction.createStore n opts ∉ (processStoreDecls b s decls).2 := by
  induction decls generalizing s with
  | nil => simp [processStoreDecls]
  | cons os rest ih =>
    have hsplit : (processStoreDecls b s (os :: rest)).2
        = (processStoreDecl b s os).2
            ++ (processStoreDecls b (processStoreDecl b s os).1 rest).2 := by
      simp [processStoreDecls]
    rw [hsplit]
    intro hmem
    rcases List.mem_append.mp hmem with h1 | h1
    · exact processStoreDecl_no_createStore b s os n hn opts h1
    · exact ih (processStoreDecl b s os).1
        (storeNamesContain_mono (processStoreDecl_le b s os) n hn) h1

/-- One iteration never emits an index-creation call re-creating an index
name already present on an existing store. -/
theorem processStoreDecl_no_recreate_index (b : Bool) (s : DBState)
    (os : StoreDecl) (sn : String) (st : StoreState) (m : String)
    (d : IndexDecl) (hf : findStore s sn = some st)
    (hm : indexNamesContain st.indexes m = true) (hd : d.name = m) :
    UpgradeAction.createIndex sn d ∉ (processStoreDecl b s os).2 := by
  by_cases hname : os.name = sn
  · subst hname
    have hc : storeNamesContain s os.name = true := by
      simp [storeNamesContain, hf]
    cases b with
    | false => simp [processStoreDecl, hc]
    | true =>
      rcases hI : os.indexes with _ | decls0
      · simp [processStoreDecl, hc, hf, hI]
      · have htr : (processStoreDecl true s os).2
            = (reconcileIndexes st.indexes decls0 os.name).2 := by
          simp [processStoreDecl, hc, hf, hI]
        rw [htr]
        exact reconcile_no_recreate st.indexes decls0 os.name m hm d hd
  · intro hmem
    by_cases hc : storeNamesContain s os.name = true
    · rcases hF : findStore s os.name with _ | st0
      · simp [storeNamesContain, hF] at hc
      · cases b with
        | false => simp [processStoreDecl, hc] at hmem
        | true =>
          rcases hI : os.indexes with _ | decls0
          · simp [processStoreDecl, hc, hF, hI] at hmem
          · have htr : (processStoreDecl true s os).2
                = (reconcileIndexes st0.indexes decls0 os.name).2 := by
              simp [processStoreDecl, hc, hF, hI]
            rw [htr] at hmem
            rcases reconcile_trace_shape st0.indexes decls0 os.name _ hmem
              with ⟨d', hd'⟩
            have : sn = os.name := by
              have h' := hd'
              simp only [UpgradeAction.createIndex.injEq] at h'
              exact h'.1
            exact hname this.symm
    · have hc' : storeNamesContain s os.name = false := by simpa using hc
      have htr : (processStoreDecl b s os).2
          = UpgradeAction.createStore os.name os.options
              :: (os.indexes.getD []).map (UpgradeAction.createIndex os.name) := by
        simp [processStoreDecl, hc']
      rw [htr] at hmem
      rcases List.mem_cons.mp hmem with heq | hmem'
      · exact absurd heq (by simp)
      · rcases List.mem_map.mp hmem' with ⟨d0, _, hd0⟩
        have : os.name = sn := by
          have h' := hd0
          simp only [UpgradeAction.createIndex.injEq] at h'
          exact h'.1
        exact hname this

/-- The whole upgrade loop never re-creates an index name already present
on a store that existed before it ran. -/
theorem processStoreDecls_no_recreate_index (b : Bool) (decls : List StoreDecl)
    (s : DBState) (sn : String) (st : StoreState) (m : String) (d : IndexDecl)
    (hf : findStore s sn = some st)
    (hm : indexNamesContain st.indexes m = true) (hd : d.name = m) :
    UpgradeAction.createIndex sn d ∉ (processStoreDecls b s decls).2 := by
  induction decls generalizing s st with
  | nil => simp [processStoreDecls]
  | cons os rest ih =>
    have hsplit : (processStoreDecls b s (os :: rest)).2
        = (processStoreDecl b s os).2
            ++ (processStoreDecls b (processStoreDecl b s os).1 rest).2 := by
      simp [processStoreDecls]
    rw [hsplit]
    intro hmem
    rcases List.mem_append.mp hmem with h1 | h1
    · exact processStoreDecl_no_recreate_index b s os sn st m d hf hm hd h1
    · rcases processStoreDecl_le b s os sn st hf with ⟨st', hf', mono⟩
      exact ih (processStoreDecl b s os).1 st' hf' (mono m hm) h1

/-! ## Idempotence of schema application -/

/-- Processing a satisfied declaration is a no-op: unchanged state, empty
trace. -/
theorem processStoreDecl_of_satisfied (b : Bool) (s : DBState)
    (os : StoreDecl) (h : declSatisfied b s os = true) :
    processStoreDecl b s os = (s, []) := by
  rcases hF : findStore s os.name with _ | st
  · simp [declSatisfied, hF] at h
  · have hc : storeNamesContain s os.name = true := by
      simp [storeNamesContain, hF]
    cases b with
    | false => simp [processStoreDecl, hc]
    | true =>
      have hall : ((os.indexes.getD []).all
          (fun d => indexNamesContain st.indexes d.name)) = true := by
        simpa [declSatisfied, hF] using h
      rcases hI : os.indexes with _ | decls0
      · simp [processStoreDecl, hc, hF, hI]
      · have hall' : ∀ d ∈ decls0, indexNamesContain st.indexes d.name = true := by
          intro d hd
          exact List.all_eq_true.mp (by simpa [hI] using hall) d hd
        have hrec := reconcile_noop st.indexes decls0 os.name hall'
        simp [processStoreDecl, hc, hF, hI, hrec,
          setStoreIndexes_self_noop s os.name st hF]

/-- After processing a declaration, that declaration is satisfied. -/
theorem processStoreDecl_establishes (b : Bool) (s : DBState)
    (os : StoreDecl) :
    declSatisfied b (processStoreDecl b s os).1 os = true := by
  by_cases hc : storeNamesContain s os.name = true
  · rcases hF : findStore s os.name with _ | st
    · simp [storeNamesContain, hF] at hc
    · cases b with
      | false => simp [processStoreDecl, hc, declSatisfied, hF]
      | true =>
        rcases hI : os.indexes with _ | decls0
        · simp [processStoreDecl, hc, hF, hI, declSatisfied]
        · have hstate : (processStoreDecl true s os).1
              = setStoreIndexes s os.name
                  (reconcileIndexes st.indexes decls0 os.name).1 := by
            simp [processStoreDecl, hc, hF, hI]
          rw [hstate]
          have hfind := findStore_setStoreIndexes_self s os.name
            (reconcileIndexes st.indexes decls0 os.name).1 st hF
          simp only [declSatisfied, hfind, hI, Option.getD_some, Bool.not_true,
            Bool.false_or]
          exact List.all_eq_true.mpr
            (fun d hd => reconcile_covers st.indexes decls0 os.name d hd)
  · have hc' : storeNamesContain s os.name = false := by simpa using hc
    have hFn : findStore s os.name = none := by
      rcases hE : findStore s os.name with _ | st
      · rfl
      · simp [storeNamesContain, hE] at hc'
    have hstate : (processStoreDecl b s os).1
        = s ++ [{ name := os.name, options := os.options,
                  indexes := os.indexes.getD [] }] := by
      simp [processStoreDecl, hc']
    rw [hstate]
    have hfind : findStore
        (s ++ [{ name := os.name, options := os.options,
                 indexes := os.indexes.getD [] }]) os.name
        = some { name := os.name, options := os.options,
                 indexes := os.indexes.getD [] } := by
      rw [findStore_append_none s _ _ hFn]
      simp [findStore]
    simp only [declSatisfied, hfind]
    cases b with
    | false => rfl
    | true =>
      simp only [Bool.not_true, Bool.false_or]
      exact List.all_eq_true.mpr
        (fun d hd => indexNamesContain_of_mem (os.indexes.getD []) d hd)

/-- Satisfaction is preserved by container growth. -/
theorem declSatisfied_mono {s t : DBState} (b : Bool) (os : StoreDecl)
    (hle : storeLe s t) (h : declSatisfied b s os = true) :
    declSatisfied b t os = true := by
  rcases hF : findStore s os.name with _ | st
  · simp [declSatisfied, hF] at h
  · rcases hle os.name st hF with ⟨st', hF', mono⟩
    cases b with
    | false => simp [declSatisfied, hF']
    | true =>
      have hall : ∀ d ∈ os.indexes.getD [],
          indexNamesContain st.indexes d.name = true :=
        List.all_eq_true.mp (by simpa [declSatisfied, hF] using h)
      simp only [declSatisfied, hF', Bool.not_true, Bool.false_or]
      exact List.all_eq_true.mpr (fun d hd => mono d.name (hall d hd))

/-- After one whole run of the upgrade loop, every declaration of the list
is satisfied. -/
theorem processStoreDecls_establishes (b : Bool) (decls : List StoreDecl) :
    ∀ s, ∀ os ∈ decls,
      declSatisfied b (processStoreDecls b s decls).1 os = true := by
  induction decls with
  | nil => intro s os h; simp at h
  | cons os0 rest ih =>
    intro s os h
    have hstate : (processStoreDecls b s (os0 :: rest)).1
        = (processStoreDecls b (processStoreDecl b s os0).1 rest).1 := by
      simp [processStoreDecls]
    rw [hstate]
    rcases List.mem_cons.mp h with rfl | hmem
    · exact declSatisfied_mono b os
        (processStoreDecls_le b rest (processStoreDecl b s os).1)
        (processStoreDecl_establishes b s os)
    · exact ih (processStoreDecl b s os0).1 os hmem

/-- On a state satisfying every declaration, the upgrade loop is a no-op:
unchanged state, empty trace. -/
theorem processStoreDecls_noop (b : Bool) (decls : List StoreDecl)
    (s : DBState) (h : ∀ os ∈ decls, declSatisfied b s os = true) :
    processStoreDecls b s decls = (s, []) := by
  induction decls with
  | nil => rfl
  | cons os0 rest ih =>
    have h0 := processStoreDecl_of_satisfied b s os0 (h os0 (by simp))
    simp [processStoreDecls, h0, ih (fun os hos => h os (by simp [hos]))]

/-- Running the upgrade handler a second time with the same schema leaves
the container state exactly as the first run left it. -/
theorem onUpgradeNeeded_idem (schema : IDBSchema) (b : Bool) (s : DBState) :
    (onUpgradeNeeded schema b (onUpgradeNeeded schema b s).1).1
      = (onUpgradeNeeded schema b s).1 := by
  rcases hO : schema.objectStores with _ | decls
  · simp [onUpgradeNeeded, hO]
  · have h2 := processStoreDecls_noop b decls (processStoreDecls b s decls).1
      (fun os hos => processStoreDecls_establishes b decls s os hos)
    simp [onUpgradeNeeded, hO, h2]

/-! ## C3: creation-at-most-once invariant -/

/-- C3: during the upgrade handler, a store name that already exists in the
container triggers no store-creation call; an index name already present on
an existing store triggers no index-creation call for that store (existence
is checked before each creation); and running the handler again with the
same schema (and hence the same version) leaves the container state — its
stores and their indexes — unchanged. -/
theorem upgrade_create_at_most_once (schema : IDBSchema) (b : Bool)
    (s : DBState) :
    (∀ n opts, storeNamesContain s n = true →
       UpgradeAction.createStore n opts ∉ (onUpgradeNeeded schema b s).2) ∧
    (∀ sn st m d, findStore s sn = some st →
       indexNamesContain st.indexes m = true → d.name = m →
       UpgradeAction.createIndex sn d ∉ (onUpgradeNeeded schema b s).2) ∧
    (onUpgradeNeeded schema b (onUpgradeNeeded schema b s).1).1
      = (onUpgradeNeeded schema b s).1 := by
  refine ⟨?_, ?_, onUpgradeNeeded_idem schema b s⟩
  · intro n opts hn hmem
    rcases hO : schema.objectStores with _ | decls
    · simp [onUpgradeNeeded, hO] at hmem
    · have hmem' : UpgradeAction.createStore n opts
          ∈ (processStoreDecls b s decls).2 := by
        simpa [onUpgradeNeeded, hO] using hmem
      exact processStoreDecls_no_createStore b decls s n hn opts hmem'
  · intro sn st m d hf hm hd hmem
    rcases hO : schema.objectStores with _ | decls
    · simp [onUpgradeNeeded, hO] at hmem
    · have hmem' : UpgradeAction.createIndex sn d
          ∈ (processStoreDecls b s decls).2 := by
        simpa [onUpgradeNeeded, hO] using hmem
      exact processStoreDecls_no_recreate_index b decls s sn st m d hf hm hd hmem'

/-- C3 witness: on the one-store schema against the already-populated
container, neither the store nor its index is re-created. -/
theorem upgrade_create_at_most_once_apply :
    UpgradeAction.createStore "users" demoOpts
      ∉ (onUpgradeNeeded demoSchema2 true demoState).2 ∧
    UpgradeAction.createIndex "users" demoIdx
      ∉ (onUpgradeNeeded demoSchema2 true demoState).2 :=
  ⟨(upgrade_create_at_most_once demoSchema2 true demoState).1 "users"
     demoOpts rfl,
   (upgrade_create_at_most_once demoSchema2 true demoState).2.1 "users"
     { name := "users", options := demoOpts, indexes := [demoIdx] }
     "byName" demoIdx rfl rfl rfl⟩

end IDBWrap
